import Mathlib

/-!
Shallow embedding of the `hll_rs` HyperLogLog cardinality estimator
(`src/main.rs`), together with proofs about its behaviour.

Modelling conventions: machine integers (`u8`, `u32`, `usize`) are `Nat`
with explicit bounds where overflow matters; the `f64` arithmetic of the
estimation formula is modelled as exact rational arithmetic over `ℚ`;
fallible operations (`Result<_, String>`, checked-arithmetic panics,
overflowing shifts) are modelled with `Except` / `Option`.
-/

set_option linter.unusedVariables false

namespace HLL

/-- Model of Rust `u32::trailing_zeros` (used by `HyperLogLog::add`): the
number of trailing zero bits, where the all-zero input yields the full bit
width 32.  `ctz fuel x` examines at most `fuel` low bits of `x`. -/
def ctz : Nat → Nat → Nat
  | 0, _ => 0
  | fuel + 1, x => if x % 2 = 1 then 0 else ctz fuel (x / 2) + 1

/-- Rust `u32::trailing_zeros`: 32 bits of fuel. -/
def trailing_zeros (x : Nat) : Nat := ctz 32 x

namespace helpers

/-- `helpers::hash_value_32`: hashes a value with the external 32-bit
Murmur3 hasher from the `hash32` crate.  The hash function itself is an
external dependency, modelled as a caller-supplied deterministic function;
the reduction `% 2 ^ 32` reflects the `u32` return type. -/
def hash_value_32 {α : Type} (hasher : α → Nat) (value : α) : Nat :=
  hasher value % 2 ^ 32

/-- `helpers::n_be_bits`: `value >> (32 - n)`.  Every call site in the
program uses `4 ≤ n ≤ 16`, where the Rust `u32` subtraction and shift
coincide with `Nat` truncated subtraction and `Nat` right shift. -/
def n_be_bits (value n : Nat) : Nat :=
  value >>> (32 - n)

/-- `helpers::n_le_bits`: `value & ((1 << n) - 1)`.  The Rust shift
`1_u32 << n` overflows the 32-bit accumulator when `n ≥ 32` (a panic in
debug builds, a masked shift amount in release builds); that overflow is
modelled as `none`. -/
def n_le_bits (value n : Nat) : Option Nat :=
  if n < 32 then some (value &&& (2 ^ n - 1)) else none

/-- `helpers::registers_from_bits`:
`2_usize.checked_pow(index_bits as u32).unwrap()` on a 64-bit platform
(`usize::MAX = 2 ^ 64 - 1`).  `checked_pow` returns `None` on overflow and
the subsequent `unwrap` panic is propagated here as `none`. -/
def registers_from_bits (index_bits : Nat) : Option Nat :=
  if 2 ^ index_bits ≤ 2 ^ 64 - 1 then some (2 ^ index_bits) else none

/-- `helpers::indicator`: `Z = 1 / Σᵢ (1 / 2 ^ registerᵢ)`, with `f64`
modelled as `ℚ`. -/
def indicator (register : List Nat) : ℚ :=
  1 / (register.map (fun x => (1 : ℚ) / 2 ^ x)).sum

end helpers

/-- The `HyperLogLog` struct: `register: Vec<u8>` (entries are ranks, at
most 33, so `u8` never wraps; modelled as `Nat`) and `index_bits: u8`. -/
structure HyperLogLog where
  register : List Nat
  index_bits : Nat
  deriving DecidableEq

namespace HyperLogLog

/-- The message of the `Err(String)` produced by `HyperLogLog::new`; the
`format!` call interpolates the offending `index_bits` value into it. -/
def invalid_bits_msg (index_bits : Nat) : String :=
  "Number of index bits must be more than 0 and less than 9 (was " ++
    toString index_bits ++ ")"

/-- `HyperLogLog::new`: rejects `index_bits` outside `4..=16` with an error
message carrying the value, otherwise allocates `2 ^ index_bits` zeroed
registers.  The `unwrap` on `registers_from_bits` cannot panic here
(`index_bits ≤ 16 < 64`), so the `getD 0` fallback is never taken. -/
def new (index_bits : Nat) : Except String HyperLogLog :=
  if 4 ≤ index_bits ∧ index_bits ≤ 16 then
    Except.ok
      { register := List.replicate ((helpers.registers_from_bits index_bits).getD 0) 0,
        index_bits := index_bits }
  else
    Except.error (invalid_bits_msg index_bits)

/-- The body of `HyperLogLog::add` after hashing: index the register array
by the top `index_bits` bits of the hash, rank the trailing zeros of the
remaining bits, and keep the register maximum.  The register read and
write use `getD` / `set`; for every state produced by `new` the index is
in bounds, so they coincide with the Rust (panicking) indexing.  Likewise
the shift width `32 - index_bits` passed to `n_le_bits` is below 32 for
every valid precision, so the `getD 0` fallback is never taken. -/
def addHash (hll : HyperLogLog) (hash : Nat) : HyperLogLog :=
  let register_index := helpers.n_be_bits hash hll.index_bits
  let non_index := (helpers.n_le_bits hash (32 - hll.index_bits)).getD 0
  let zeros := trailing_zeros non_index + 1
  { hll with
      register := hll.register.set register_index
        (max zeros (hll.register.getD register_index 0)) }

/-- `HyperLogLog::add`: hash the value with the external 32-bit hasher,
then update the registers. -/
def add {α : Type} (hasher : α → Nat) (hll : HyperLogLog) (value : α) : HyperLogLog :=
  addHash hll (helpers.hash_value_32 hasher value)

/-- `HyperLogLog::alpha`: the bias-correction constant, selected from the
register count (`f64` modelled as `ℚ`). -/
def alpha (hll : HyperLogLog) : ℚ :=
  let m : ℚ := hll.register.length
  if m < 32 then 0.673
  else if m < 64 then 0.697
  else if m < 128 then 0.709
  else 0.7213 / (1 + 1.079 / m)

/-- `HyperLogLog::count`: `alpha * m² * Z`, where `m.pow(2)` is the exact
integer square of the register count (`f64` modelled as `ℚ`). -/
def count (hll : HyperLogLog) : ℚ :=
  let a : ℚ := hll.alpha
  let m_pow_2 : ℚ := ((hll.register.length ^ 2 : Nat) : ℚ)
  a * m_pow_2 * helpers.indicator hll.register

/-- The states the Rust API can actually produce: a valid precision and a
register vector of the corresponding length (the struct fields are private
to the module, so every estimator goes through `new`). -/
def Valid (hll : HyperLogLog) : Prop :=
  4 ≤ hll.index_bits ∧ hll.index_bits ≤ 16 ∧
    hll.register.length = 2 ^ hll.index_bits

instance (hll : HyperLogLog) : Decidable hll.Valid := by
  unfold Valid; infer_instance

end HyperLogLog

/-- The two estimator API calls an external caller can make. -/
inductive Op (α : Type) where
  | addOp : α → Op α
  | countOp : Op α

/-- One API call: `add` mutates the registers; `count` takes `&self`,
computes the estimate from the registers and leaves the state unchanged. -/
def exec {α : Type} (hasher : α → Nat) (hll : HyperLogLog) : Op α → HyperLogLog
  | Op.addOp v => HyperLogLog.add hasher hll v
  | Op.countOp => hll

/-- Run a sequence of API calls from a starting state. -/
def execList {α : Type} (hasher : α → Nat) (hll : HyperLogLog) (ops : List (Op α)) :
    HyperLogLog :=
  ops.foldl (exec hasher) hll

/-! ### Basic lemmas about the embedded helpers -/

theorem ctz_spec : ∀ (fuel x : Nat), x ≠ 0 → x < 2 ^ fuel →
    2 ^ ctz fuel x ∣ x ∧ ¬ 2 ^ (ctz fuel x + 1) ∣ x := by
  intro fuel
  induction fuel with
  | zero =>
    intro x hx hlt
    simp only [pow_zero] at hlt
    omega
  | succ fuel ih =>
    intro x hx hlt
    by_cases hodd : x % 2 = 1
    · have hctz : ctz (fuel + 1) x = 0 := by simp [ctz, hodd]
      rw [hctz]
      refine ⟨by simp, ?_⟩
      intro hdvd
      rw [zero_add, pow_one] at hdvd
      omega
    · have hx2 : x % 2 = 0 := by omega
      have hctz : ctz (fuel + 1) x = ctz fuel (x / 2) + 1 := by
        simp [ctz, hodd]
      rw [hctz]
      have hx' : x / 2 ≠ 0 := by omega
      have hlt' : x / 2 < 2 ^ fuel := by
        have h2 : 2 ^ (fuel + 1) = 2 * 2 ^ fuel := by ring
        omega
      obtain ⟨h1, h2⟩ := ih (x / 2) hx' hlt'
      set k := ctz fuel (x / 2) with hk
      have hxeq : x = 2 * (x / 2) := by omega
      constructor
      · obtain ⟨c, hc⟩ := h1
        refine ⟨c, ?_⟩
        rw [hxeq, hc]
        ring
      · rintro ⟨c, hc⟩
        apply h2
        refine ⟨c, ?_⟩
        have hxc : x = 2 * (2 ^ (k + 1) * c) := by rw [hc]; ring
        omega

theorem trailing_zeros_spec (x : Nat) (hx : x ≠ 0) (hlt : x < 2 ^ 32) :
    2 ^ trailing_zeros x ∣ x ∧ ¬ 2 ^ (trailing_zeros x + 1) ∣ x :=
  ctz_spec 32 x hx hlt

theorem trailing_zeros_zero : trailing_zeros 0 = 32 := by decide

theorem n_le_bits_of_lt (value n : Nat) (h : n < 32) :
    helpers.n_le_bits value n = some (value % 2 ^ n) := by
  simp [helpers.n_le_bits, h, Nat.and_pow_two_sub_one_eq_mod]

theorem n_be_bits_eq_div (value n : Nat) :
    helpers.n_be_bits value n = value / 2 ^ (32 - n) := by
  simp [helpers.n_be_bits, Nat.shiftRight_eq_div_pow]

/-- For a 32-bit hash and a precision `p ≤ 32`, the top-bits index is below
`2 ^ p`. -/
theorem n_be_bits_lt (value n : Nat) (hv : value < 2 ^ 32) (hn : n ≤ 32) :
    helpers.n_be_bits value n < 2 ^ n := by
  rw [n_be_bits_eq_div]
  apply Nat.div_lt_of_lt_mul
  have hsum : 32 - n + n = 32 := by omega
  calc value < 2 ^ 32 := hv
    _ = 2 ^ (32 - n) * 2 ^ n := by rw [← pow_add, hsum]

/-- Unfolded form of `addHash` on valid precisions: index by
`hash / 2 ^ (32 - p)`, remainder `hash % 2 ^ (32 - p)`. -/
theorem addHash_eq (hll : HyperLogLog) (hash : Nat)
    (hp : 1 ≤ hll.index_bits) :
    hll.addHash hash =
      { register := hll.register.set (hash / 2 ^ (32 - hll.index_bits))
          (max (trailing_zeros (hash % 2 ^ (32 - hll.index_bits)) + 1)
            (hll.register.getD (hash / 2 ^ (32 - hll.index_bits)) 0)),
        index_bits := hll.index_bits } := by
  have hlt : 32 - hll.index_bits < 32 := by omega
  simp [HyperLogLog.addHash, n_le_bits_of_lt _ _ hlt, n_be_bits_eq_div]

theorem addHash_index_bits (hll : HyperLogLog) (hash : Nat) :
    (hll.addHash hash).index_bits = hll.index_bits := rfl

theorem addHash_length (hll : HyperLogLog) (hash : Nat) :
    (hll.addHash hash).register.length = hll.register.length := by
  simp [HyperLogLog.addHash]

/-! ### List-update helper lemmas -/

theorem getD_set_self (l : List Nat) (i v : Nat) (h : i < l.length) :
    (l.set i v).getD i 0 = v := by
  simp [List.getD_eq_getElem?_getD, List.getElem?_set_self h]

theorem getD_set_ne (l : List Nat) (i j v : Nat) (h : i ≠ j) :
    (l.set i v).getD j 0 = l.getD j 0 := by
  simp [List.getD_eq_getElem?_getD, List.getElem?_set_ne h]

/-- The register-update of `add` is commutative: updating two indices with
two ranks in either order yields the same list. -/
theorem set_max_comm (l : List Nat) (i1 i2 z1 z2 : Nat) :
    (l.set i1 (max z1 (l.getD i1 0))).set i2
        (max z2 ((l.set i1 (max z1 (l.getD i1 0))).getD i2 0)) =
    (l.set i2 (max z2 (l.getD i2 0))).set i1
        (max z1 ((l.set i2 (max z2 (l.getD i2 0))).getD i1 0)) := by
  by_cases hij : i1 = i2
  · subst hij
    by_cases hlen : i1 < l.length
    · rw [getD_set_self _ _ _ hlen, getD_set_self _ _ _ hlen,
        List.set_set, List.set_set]
      congr 1
      exact max_left_comm z2 z1 (l.getD i1 0)
    · have hle := Nat.le_of_not_lt hlen
      simp [List.set_eq_of_length_le, hle]
  · rw [getD_set_ne _ _ _ _ hij, getD_set_ne _ _ _ _ (Ne.symm hij),
      List.set_comm _ _ _ hij]

/-- The register-update of `add` is idempotent: applying the same rank at
the same index twice is the same as once. -/
theorem set_max_same (l : List Nat) (i z : Nat) :
    (l.set i (max z (l.getD i 0))).set i
        (max z ((l.set i (max z (l.getD i 0))).getD i 0)) =
    l.set i (max z (l.getD i 0)) := by
  by_cases hlen : i < l.length
  · rw [getD_set_self _ _ _ hlen, List.set_set, ← max_assoc, max_self]
  · have hle := Nat.le_of_not_lt hlen
    simp [List.set_eq_of_length_le, hle]

/-! ### Lemmas about `add` -/

theorem addHash_comm (hll : HyperLogLog) (h1 h2 : Nat) :
    (hll.addHash h1).addHash h2 = (hll.addHash h2).addHash h1 := by
  simp only [HyperLogLog.addHash]
  exact congrArg (fun r => HyperLogLog.mk r hll.index_bits)
    (set_max_comm hll.register _ _ _ _)

theorem addHash_same (hll : HyperLogLog) (h : Nat) :
    (hll.addHash h).addHash h = hll.addHash h := by
  simp only [HyperLogLog.addHash]
  exact congrArg (fun r => HyperLogLog.mk r hll.index_bits)
    (set_max_same hll.register _ _)

theorem getD_le_addHash (hll : HyperLogLog) (h j : Nat) :
    hll.register.getD j 0 ≤ (hll.addHash h).register.getD j 0 := by
  simp only [HyperLogLog.addHash]
  by_cases hij : helpers.n_be_bits h hll.index_bits = j
  · subst hij
    by_cases hlen : helpers.n_be_bits h hll.index_bits < hll.register.length
    · rw [getD_set_self _ _ _ hlen]
      exact le_max_right _ _
    · rw [List.set_eq_of_length_le (Nat.le_of_not_lt hlen)]
  · rw [getD_set_ne _ _ _ _ hij]

theorem addHash_changes_at_most_one (hll : HyperLogLog) (h : Nat) :
    ∃ i, ∀ j, j ≠ i → (hll.addHash h).register.getD j 0 = hll.register.getD j 0 := by
  refine ⟨helpers.n_be_bits h hll.index_bits, fun j hj => ?_⟩
  simp only [HyperLogLog.addHash]
  exact getD_set_ne _ _ _ _ (Ne.symm hj)

theorem add_comm_values {α : Type} (hasher : α → Nat) (hll : HyperLogLog) (v1 v2 : α) :
    HyperLogLog.add hasher (HyperLogLog.add hasher hll v1) v2 =
      HyperLogLog.add hasher (HyperLogLog.add hasher hll v2) v1 :=
  addHash_comm hll _ _

theorem add_register_length {α : Type} (hasher : α → Nat) (hll : HyperLogLog) (v : α) :
    (HyperLogLog.add hasher hll v).register.length = hll.register.length :=
  addHash_length _ _

theorem add_index_bits {α : Type} (hasher : α → Nat) (hll : HyperLogLog) (v : α) :
    (HyperLogLog.add hasher hll v).index_bits = hll.index_bits := rfl

/-! ### Lemmas about `new` and `execList` -/

theorem new_ok_of_range (p : Nat) (hp : 4 ≤ p ∧ p ≤ 16) :
    HyperLogLog.new p = Except.ok ⟨List.replicate (2 ^ p) 0, p⟩ := by
  have hpow : 2 ^ p ≤ 2 ^ 64 - 1 := by
    have h1 : 2 ^ p ≤ 2 ^ 16 := Nat.pow_le_pow_right (by norm_num) hp.2
    have h2 : (2 : Nat) ^ 16 ≤ 2 ^ 64 - 1 := by norm_num
    omega
  norm_num at hpow
  simp [HyperLogLog.new, hp, helpers.registers_from_bits, hpow]

theorem new_err_of_not_range (p : Nat) (hp : ¬ (4 ≤ p ∧ p ≤ 16)) :
    HyperLogLog.new p = Except.error (HyperLogLog.invalid_bits_msg p) := by
  simp [HyperLogLog.new, hp]

theorem new_ok_elim (p : Nat) (hll : HyperLogLog)
    (h : HyperLogLog.new p = Except.ok hll) :
    (4 ≤ p ∧ p ≤ 16) ∧ hll = ⟨List.replicate (2 ^ p) 0, p⟩ := by
  by_cases hp : 4 ≤ p ∧ p ≤ 16
  · rw [new_ok_of_range p hp] at h
    injection h with h'
    exact ⟨hp, h'.symm⟩
  · rw [new_err_of_not_range p hp] at h
    cases h

theorem new_ok_valid (p : Nat) (hll : HyperLogLog)
    (h : HyperLogLog.new p = Except.ok hll) : hll.Valid := by
  obtain ⟨⟨hp1, hp2⟩, rfl⟩ := new_ok_elim p hll h
  exact ⟨hp1, hp2, by simp⟩

theorem execList_cons {α : Type} (hasher : α → Nat) (hll : HyperLogLog)
    (op : Op α) (ops : List (Op α)) :
    execList hasher hll (op :: ops) = execList hasher (exec hasher hll op) ops := rfl

theorem execList_preserves {α : Type} (hasher : α → Nat) :
    ∀ (ops : List (Op α)) (hll : HyperLogLog),
      (execList hasher hll ops).register.length = hll.register.length ∧
      (execList hasher hll ops).index_bits = hll.index_bits := by
  intro ops
  induction ops with
  | nil => exact fun hll => ⟨rfl, rfl⟩
  | cons op rest ih =>
    intro hll
    rw [execList_cons]
    rcases op with v | _
    · refine ⟨?_, ?_⟩
      · rw [(ih _).1]
        exact add_register_length hasher hll v
      · rw [(ih _).2]
        rfl
    · exact ih hll

/-! ### Lemmas about the estimation formula -/

theorem indicator_replicate_zero (m : Nat) :
    helpers.indicator (List.replicate m 0) = 1 / (m : ℚ) := by
  simp [helpers.indicator]

theorem count_replicate_zero (m p : Nat) (hm : m ≠ 0) :
    HyperLogLog.count ⟨List.replicate m 0, p⟩ =
      HyperLogLog.alpha ⟨List.replicate m 0, p⟩ * (m : ℚ) := by
  have hm' : (m : ℚ) ≠ 0 := Nat.cast_ne_zero.mpr hm
  simp only [HyperLogLog.count, indicator_replicate_zero]
  simp only [List.length_replicate]
  push_cast
  field_simp
  ring

/-! ### Claim C1 -/

/-- C1: for every hashable value and every estimator with a valid precision
`p`, `add(value)` computes the 32-bit hash `h` of the value and sets the
register indexed by the top `p` bits of `h` (an unsigned integer below
`2 ^ p`) to the maximum of its previous value and `rank`, where `rank - 1`
is exactly the number of trailing zero bits of the bottom `32 - p` bits of
`h` (characterised by divisibility by powers of two), whenever those bottom
bits are not all zero. -/
theorem add_updates_register_by_rank {α : Type} (hasher : α → Nat)
    (hll : HyperLogLog) (value : α) (hv : hll.Valid)
    (hnz : helpers.hash_value_32 hasher value % 2 ^ (32 - hll.index_bits) ≠ 0) :
    ∃ idx rank,
      idx = helpers.hash_value_32 hasher value / 2 ^ (32 - hll.index_bits) ∧
      idx < 2 ^ hll.index_bits ∧
      1 ≤ rank ∧
      2 ^ (rank - 1) ∣ helpers.hash_value_32 hasher value % 2 ^ (32 - hll.index_bits) ∧
      ¬ 2 ^ rank ∣ helpers.hash_value_32 hasher value % 2 ^ (32 - hll.index_bits) ∧
      HyperLogLog.add hasher hll value =
        { register := hll.register.set idx
            (max rank (hll.register.getD idx 0)),
          index_bits := hll.index_bits } := by
  obtain ⟨hp1, hp2, hlen⟩ := hv
  set h := helpers.hash_value_32 hasher value with hh
  have hh32 : h < 2 ^ 32 := Nat.mod_lt _ (by norm_num)
  have hrem_lt : h % 2 ^ (32 - hll.index_bits) < 2 ^ 32 := by
    have h1 : h % 2 ^ (32 - hll.index_bits) < 2 ^ (32 - hll.index_bits) :=
      Nat.mod_lt _ (pow_pos (by norm_num) _)
    have h2 : (2 : Nat) ^ (32 - hll.index_bits) ≤ 2 ^ 32 :=
      Nat.pow_le_pow_right (by norm_num) (by omega)
    omega
  obtain ⟨hdvd, hndvd⟩ := trailing_zeros_spec _ hnz hrem_lt
  refine ⟨h / 2 ^ (32 - hll.index_bits),
    trailing_zeros (h % 2 ^ (32 - hll.index_bits)) + 1,
    rfl, ?_, by omega, by simpa using hdvd, hndvd, ?_⟩
  · have hidx := n_be_bits_lt h hll.index_bits hh32 (by omega)
    rwa [n_be_bits_eq_div] at hidx
  · exact addHash_eq hll h (by omega)

/-- Witness for C1: precision 4, identity hasher, value 1 (hash 1, whose
bottom 28 bits are 1, hence nonzero; rank 1 lands in register 0). -/
theorem add_updates_register_by_rank_witness :
    ∃ idx rank,
      idx = helpers.hash_value_32 (fun n => n) (1 : Nat) / 2 ^ 28 ∧
      idx < 2 ^ 4 ∧
      1 ≤ rank ∧
      2 ^ (rank - 1) ∣ helpers.hash_value_32 (fun n => n) (1 : Nat) % 2 ^ 28 ∧
      ¬ 2 ^ rank ∣ helpers.hash_value_32 (fun n => n) (1 : Nat) % 2 ^ 28 ∧
      HyperLogLog.add (fun n => n) ⟨List.replicate 16 0, 4⟩ (1 : Nat) =
        { register := (List.replicate 16 0).set idx
            (max rank ((List.replicate 16 0).getD idx 0)),
          index_bits := 4 } :=
  add_updates_register_by_rank (fun n => n) ⟨List.replicate 16 0, 4⟩ 1
    (by decide) (by decide)

/-! ### Claim C2 -/

/-- C2: `count` (the spec's `estimate()`) returns `alpha * m ^ 2 * Z` with
`Z = 1 / Σᵢ 2 ^ (-rᵢ)`, and on a freshly constructed estimator (all
registers zero) it returns `alpha * m` — the raw formula output, not 0. -/
theorem count_formula :
    (∀ hll : HyperLogLog,
      hll.count = hll.alpha * (hll.register.length : ℚ) ^ 2 *
        (1 / (hll.register.map (fun r : Nat => (2 : ℚ) ^ (-(r : ℤ)))).sum)) ∧
    (∀ (p : Nat) (hll : HyperLogLog), HyperLogLog.new p = Except.ok hll →
      hll.count = hll.alpha * (hll.register.length : ℚ)) := by
  constructor
  · intro hll
    have hfun : (fun x : Nat => (1 : ℚ) / 2 ^ x) =
        fun r : Nat => (2 : ℚ) ^ (-(r : ℤ)) := by
      funext x
      rw [zpow_neg, zpow_natCast, one_div]
    simp only [HyperLogLog.count, helpers.indicator, hfun, Nat.cast_pow]
  · intro p hll hok
    obtain ⟨⟨hp1, hp2⟩, rfl⟩ := new_ok_elim p hll hok
    have hm : (2 : Nat) ^ p ≠ 0 := (pow_pos (by norm_num) p).ne'
    rw [count_replicate_zero _ _ hm]
    simp

/-- Witness for C2: a fresh precision-4 estimator (16 zero registers) has
estimate `alpha * 16`. -/
theorem count_formula_witness :
    HyperLogLog.count ⟨List.replicate 16 0, 4⟩ =
      HyperLogLog.alpha ⟨List.replicate 16 0, 4⟩ *
        ((List.replicate 16 (0 : Nat)).length : ℚ) :=
  count_formula.2 4 ⟨List.replicate 16 0, 4⟩ (by rfl)

/-! ### Claim C3 -/

/-- C3: the bias-correction constant `alpha` follows the half-open
breakpoint table `m < 32 → 0.673`, `32 ≤ m < 64 → 0.697`,
`64 ≤ m < 128 → 0.709`, `128 ≤ m → 0.7213 / (1 + 1.079 / m)`; in
particular `m = 32` takes `0.697`, not `0.673`. -/
theorem alpha_breakpoints (hll : HyperLogLog) :
    (hll.register.length < 32 → hll.alpha = 0.673) ∧
    (32 ≤ hll.register.length → hll.register.length < 64 → hll.alpha = 0.697) ∧
    (64 ≤ hll.register.length → hll.register.length < 128 → hll.alpha = 0.709) ∧
    (128 ≤ hll.register.length →
      hll.alpha = 0.7213 / (1 + 1.079 / (hll.register.length : ℚ))) ∧
    (hll.register.length = 32 → hll.alpha = 0.697) := by
  simp only [HyperLogLog.alpha]
  refine ⟨?_, ?_, ?_, ?_, ?_⟩
  · intro h
    have h' : (hll.register.length : ℚ) < 32 := by exact_mod_cast h
    rw [if_pos h']
  · intro h1 h2
    have h1' : ¬ ((hll.register.length : ℚ) < 32) := by
      push_neg
      exact_mod_cast h1
    have h2' : (hll.register.length : ℚ) < 64 := by exact_mod_cast h2
    rw [if_neg h1', if_pos h2']
  · intro h1 h2
    have h1' : ¬ ((hll.register.length : ℚ) < 32) := by
      push_neg
      exact_mod_cast le_trans (by norm_num) h1
    have h2' : ¬ ((hll.register.length : ℚ) < 64) := by
      push_neg
      exact_mod_cast h1
    have h3' : (hll.register.length : ℚ) < 128 := by exact_mod_cast h2
    rw [if_neg h1', if_neg h2', if_pos h3']
  · intro h1
    have h1' : ¬ ((hll.register.length : ℚ) < 32) := by
      push_neg
      exact_mod_cast le_trans (by norm_num) h1
    have h2' : ¬ ((hll.register.length : ℚ) < 64) := by
      push_neg
      exact_mod_cast le_trans (by norm_num) h1
    have h3' : ¬ ((hll.register.length : ℚ) < 128) := by
      push_neg
      exact_mod_cast h1
    rw [if_neg h1', if_neg h2', if_neg h3']
  · intro h
    rw [h]
    norm_num

/-- Witness for C3: an estimator with exactly 32 registers gets
`alpha = 0.697` (the lower branch of the `m = 32` breakpoint). -/
theorem alpha_breakpoints_witness :
    HyperLogLog.alpha ⟨List.replicate 32 0, 5⟩ = 0.697 :=
  (alpha_breakpoints ⟨List.replicate 32 0, 5⟩).2.2.2.2 (by decide)

/-! ### Claim C4 -/

/-- C4 (refuted — code bug): at precision 4, a value whose 32-bit hash is
`2 ^ 28` has its bottom 28 bits entirely zero.  The code then evaluates
`u32::trailing_zeros(0) + 1 = 33` and stores rank 33 in register 1, whereas
the claim (and the spec) require rank `32 - 4 + 1 = 29`. -/
theorem add_zero_remainder_rank_33 :
    HyperLogLog.add (fun n => n) ⟨List.replicate 16 0, 4⟩ ((2 : Nat) ^ 28) =
      ⟨(List.replicate 16 0).set 1 33, 4⟩ ∧
    (33 : Nat) ≠ 32 - 4 + 1 := by
  constructor
  · decide
  · decide

/-! ### Claim C5 -/

/-- C5: `new` fails exactly when the precision lies outside `4..=16`, the
error message carries the supplied value (no silent clamping), and on
success the estimator has `2 ^ precision` registers, all zero. -/
theorem new_precision_validation (p : Nat) :
    (HyperLogLog.new p = Except.error (HyperLogLog.invalid_bits_msg p) ↔
      ¬ (4 ≤ p ∧ p ≤ 16)) ∧
    (∃ s t : String, HyperLogLog.invalid_bits_msg p = s ++ toString p ++ t) ∧
    (∀ hll, HyperLogLog.new p = Except.ok hll →
      hll.register.length = 2 ^ p ∧ ∀ r ∈ hll.register, r = 0) := by
  refine ⟨⟨?_, new_err_of_not_range p⟩, ?_, ?_⟩
  · intro herr hp
    rw [new_ok_of_range p hp] at herr
    cases herr
  · exact ⟨"Number of index bits must be more than 0 and less than 9 (was ",
      ")", rfl⟩
  · intro hll hok
    obtain ⟨_, rfl⟩ := new_ok_elim p hll hok
    exact ⟨by simp, fun r hr => List.eq_of_mem_replicate hr⟩

/-- Witness for C5: `new 20` and `new 0` both fail with the message carrying
the supplied value; `new 4` succeeds with 16 zero registers. -/
theorem new_precision_validation_witness :
    HyperLogLog.new 20 = Except.error (HyperLogLog.invalid_bits_msg 20) ∧
    HyperLogLog.new 0 = Except.error (HyperLogLog.invalid_bits_msg 0) ∧
    ((List.replicate 16 (0 : Nat)).length = 2 ^ 4 ∧
      ∀ r ∈ List.replicate 16 (0 : Nat), r = 0) :=
  ⟨(new_precision_validation 20).1.mpr (by decide),
   (new_precision_validation 0).1.mpr (by decide),
   (new_precision_validation 4).2.2 ⟨List.replicate 16 0, 4⟩ (by rfl)⟩

/-! ### Claim C6 -/

/-- C6: adding the same value twice produces the register state — and hence
the estimate — of adding it once. -/
theorem add_idempotent {α : Type} (hasher : α → Nat) (hll : HyperLogLog)
    (value : α) (hv : hll.Valid) :
    HyperLogLog.add hasher (HyperLogLog.add hasher hll value) value =
      HyperLogLog.add hasher hll value ∧
    (HyperLogLog.add hasher (HyperLogLog.add hasher hll value) value).count =
      (HyperLogLog.add hasher hll value).count := by
  have h := addHash_same hll (helpers.hash_value_32 hasher value)
  exact ⟨h, congrArg HyperLogLog.count h⟩

/-- Witness for C6: precision 4, identity hasher, value 1. -/
theorem add_idempotent_witness :
    HyperLogLog.add (fun n => n)
        (HyperLogLog.add (fun n => n) ⟨List.replicate 16 0, 4⟩ (1 : Nat)) 1 =
      HyperLogLog.add (fun n => n) ⟨List.replicate 16 0, 4⟩ 1 ∧
    (HyperLogLog.add (fun n => n)
        (HyperLogLog.add (fun n => n) ⟨List.replicate 16 0, 4⟩ (1 : Nat)) 1).count =
      (HyperLogLog.add (fun n => n) ⟨List.replicate 16 0, 4⟩ 1).count :=
  add_idempotent (fun n => n) ⟨List.replicate 16 0, 4⟩ 1 (by decide)

/-! ### Claim C7 -/

/-- C7: in every state reachable from a successful construction through
`add` and `count` calls, the register count stays `2 ^ precision` and the
precision is unchanged; each `add` never decreases any register and changes
at most one; `count` leaves the state unchanged. -/
theorem reachable_state_invariants {α : Type} (hasher : α → Nat) :
    (∀ (p : Nat) (hll0 : HyperLogLog) (ops : List (Op α)),
      HyperLogLog.new p = Except.ok hll0 →
      (execList hasher hll0 ops).index_bits = p ∧
      (execList hasher hll0 ops).register.length = 2 ^ p) ∧
    (∀ (hll : HyperLogLog) (value : α),
      (∀ j, hll.register.getD j 0 ≤
        (HyperLogLog.add hasher hll value).register.getD j 0) ∧
      (∃ i, ∀ j, j ≠ i →
        (HyperLogLog.add hasher hll value).register.getD j 0 =
          hll.register.getD j 0)) ∧
    (∀ hll : HyperLogLog, exec hasher hll Op.countOp = hll) := by
  refine ⟨?_, ?_, fun _ => rfl⟩
  · intro p hll0 ops hok
    obtain ⟨⟨hp1, hp2⟩, rfl⟩ := new_ok_elim p hll0 hok
    obtain ⟨hl, hi⟩ := execList_preserves hasher ops _
    exact ⟨by rw [hi], by rw [hl]; simp⟩
  · intro hll value
    exact ⟨fun j => getD_le_addHash hll _ j, addHash_changes_at_most_one hll _⟩

/-- Witness for C7: precision 4 with the call sequence
`add 1; count; add 2` keeps 16 registers and precision 4. -/
theorem reachable_state_invariants_witness :
    (execList (fun n => n) ⟨List.replicate 16 0, 4⟩
        [Op.addOp 1, Op.countOp, Op.addOp 2]).index_bits = 4 ∧
    (execList (fun n => n) ⟨List.replicate 16 0, 4⟩
        [Op.addOp 1, Op.countOp, Op.addOp 2]).register.length = 2 ^ 4 :=
  (reachable_state_invariants (fun n => n)).1 4 ⟨List.replicate 16 0, 4⟩
    [Op.addOp 1, Op.countOp, Op.addOp 2] (by rfl)

/-! ### Claim C8 -/

/-- C8 (refuted — code bug): `n_le_bits(value, 32)` computes the bitmask
`(1_u32 << 32) - 1`, an overflowing 32-bit shift (modelled `none`), instead
of returning the value itself; for `n < 32` the function does return the
`n` least-significant bits. -/
theorem n_le_bits_overflow_at_32 :
    helpers.n_le_bits 5 32 = none ∧
    helpers.n_le_bits 5 32 ≠ some 5 ∧
    helpers.n_le_bits 5 31 = some 5 ∧
    helpers.n_le_bits 0b10100100 3 = some 0b100 := by
  refine ⟨by decide, by decide, by decide, by decide⟩

/-! ### Claim C9 -/

/-- C9: `registers_from_bits` returns `2 ^ precision` whenever that is
representable in a 64-bit `usize` (in particular `8` for precision 3), and
the checked computation fails — rather than silently wrapping — once
`2 ^ precision` exceeds `usize::MAX`. -/
theorem registers_from_bits_checked :
    helpers.registers_from_bits 3 = some 8 ∧
    (∀ n, n ≤ 63 → helpers.registers_from_bits n = some (2 ^ n)) ∧
    (∀ n, 64 ≤ n → helpers.registers_from_bits n = none) := by
  refine ⟨by decide, ?_, ?_⟩
  · intro n hn
    have h1 : 2 ^ n ≤ 2 ^ 63 := Nat.pow_le_pow_right (by norm_num) hn
    have h2 : (2 : Nat) ^ 63 ≤ 2 ^ 64 - 1 := by norm_num
    unfold helpers.registers_from_bits
    rw [if_pos (le_trans h1 h2)]
  · intro n hn
    have h1 : (2 : Nat) ^ 64 ≤ 2 ^ n := Nat.pow_le_pow_right (by norm_num) hn
    have h2 : (0 : Nat) < 2 ^ 64 := pow_pos (by norm_num) 64
    have h : ¬ (2 ^ n ≤ 2 ^ 64 - 1) := by omega
    unfold helpers.registers_from_bits
    rw [if_neg h]

/-- Witness for C9: precision 10 yields 1024 registers; precision 64
overflows the checked computation. -/
theorem registers_from_bits_checked_witness :
    helpers.registers_from_bits 10 = some (2 ^ 10) ∧
    helpers.registers_from_bits 64 = none :=
  ⟨registers_from_bits_checked.2.1 10 (by decide),
   registers_from_bits_checked.2.2 64 (by decide)⟩

/-! ### Claim C10 -/

/-- C10: adding a finite sequence of values in any order to a freshly
constructed estimator yields identical register state and an identical
estimate (the hash is deterministic and the per-register max update is
commutative). -/
theorem add_order_independent {α : Type} (hasher : α → Nat) (p : Nat)
    (hll0 : HyperLogLog) (l1 l2 : List α)
    (hok : HyperLogLog.new p = Except.ok hll0) (hperm : l1.Perm l2) :
    l1.foldl (HyperLogLog.add hasher) hll0 =
      l2.foldl (HyperLogLog.add hasher) hll0 ∧
    (l1.foldl (HyperLogLog.add hasher) hll0).count =
      (l2.foldl (HyperLogLog.add hasher) hll0).count := by
  have h := hperm.foldl_eq' (fun x hx y hy z => add_comm_values hasher z x y) hll0
  exact ⟨h, congrArg HyperLogLog.count h⟩

/-- Witness for C10: precision 4, values `[1, 2, 3]` against the permuted
`[3, 1, 2]`. -/
theorem add_order_independent_witness :
    [1, 2, 3].foldl (HyperLogLog.add (fun n => n)) ⟨List.replicate 16 0, 4⟩ =
      [3, 1, 2].foldl (HyperLogLog.add (fun n => n)) ⟨List.replicate 16 0, 4⟩ ∧
    ([1, 2, 3].foldl (HyperLogLog.add (fun n => n)) ⟨List.replicate 16 0, 4⟩).count =
      ([3, 1, 2].foldl (HyperLogLog.add (fun n => n)) ⟨List.replicate 16 0, 4⟩).count :=
  add_order_independent (fun n => n) 4 ⟨List.replicate 16 0, 4⟩ [1, 2, 3] [3, 1, 2]
    (by rfl) (by decide)

end HLL
